import Mathlib

/-!
Verification of the tree-series model (`src/chart/tree/TreeSeries.ts`) and the
lines visual stage handler against their natural-language specification.

The TypeScript sources are shallowly embedded: JavaScript values that can be a
scalar, an array or `undefined` are modelled by the inductive `JVal`; the
visual-attribute store written through `setVisual`/`setItemVisual` is modelled
as an association list of writes; the option tree handed to
`TreeSeriesModel.getInitialData` is modelled by the nested inductive `OptNode`
and the two pre-order traversals are modelled by structurally recursive
functions over it.
-/

namespace EchartsSpec

/-- A JavaScript value as it flows through the lines visual resolver:
`undefined`, a string, a (finite, integral) number, or an array. -/
inductive JVal where
  | undefined : JVal
  | str : String → JVal
  | num : Int → JVal
  | arr : List JVal → JVal
deriving Repr

/-- JavaScript truthiness for the values of `JVal`: `undefined`, the empty
string and `0` are falsy; every other string and number, and every array,
is truthy. -/
def truthy : JVal → Bool
  | .undefined => false
  | .str s => !s.isEmpty
  | .num n => n != 0
  | .arr _ => true

/-- `a[i]` on a `JVal`: indexing an array yields the element, or `undefined`
past the end.  The resolver only ever indexes results of `normalize`, which
are always arrays. -/
def JVal.index : JVal → Nat → JVal
  | .arr xs, i => (xs.get? i).getD .undefined
  | _, _ => .undefined

/-- JavaScript `a && b`: returns `a` when `a` is falsy, else `b`. -/
def jsAnd (a b : JVal) : JVal :=
  if truthy a then b else a

/-- `true` exactly on array values. -/
def JVal.isArr : JVal → Bool
  | .arr _ => true
  | _ => false

/-- The lines visual `normalize` helper: a non-array input `a` becomes the
pair `[a, a]`; an array is returned unchanged. -/
def normalize (a : JVal) : JVal :=
  match a with
  | .arr xs => .arr xs
  | x => .arr [x, x]

/-- The series-level pass of `linesVisual.reset`: the five `setVisual` calls,
in order, as an association list from attribute name to written value.
`symbol` and `symbolSize` are the series options; `opacity` is
`seriesModel.get(['lineStyle', 'opacity'])`. -/
def resetSeriesWrites (symbol symbolSize opacity : JVal) : List (String × JVal) :=
  let symbolType := normalize symbol
  let symbolSizePair := normalize symbolSize
  [("fromSymbol", jsAnd symbolType (symbolType.index 0)),
   ("toSymbol", jsAnd symbolType (symbolType.index 1)),
   ("fromSymbolSize", jsAnd symbolSizePair (symbolSizePair.index 0)),
   ("toSymbolSize", jsAnd symbolSizePair (symbolSizePair.index 1)),
   ("opacity", opacity)]

/-- The per-row `dataEach` callback of `linesVisual.reset` for one row, as the
list of `setItemVisual` writes it performs.  `itemSymbol` and `itemSymbolSize`
are the row's shallow `symbol`/`symbolSize` options (or `undefined`);
`itemOpacity` is `itemModel.get(['lineStyle', 'opacity'])`, i.e. the value
already resolved through the item model's parent chain.  Each of the four
symbol attributes is written only behind a `&&` truthiness guard; the
opacity write is unguarded. -/
def dataEachWrites (itemSymbol itemSymbolSize itemOpacity : JVal) :
    List (String × JVal) :=
  let symbolType := normalize itemSymbol
  let symbolSizePair := normalize itemSymbolSize
  (if truthy (symbolType.index 0) then [("fromSymbol", symbolType.index 0)] else []) ++
  (if truthy (symbolType.index 1) then [("toSymbol", symbolType.index 1)] else []) ++
  (if truthy (symbolSizePair.index 0) then [("fromSymbolSize", symbolSizePair.index 0)] else []) ++
  (if truthy (symbolSizePair.index 1) then [("toSymbolSize", symbolSizePair.index 1)] else []) ++
  [("opacity", itemOpacity)]

/-- `linesVisual.reset`: performs the series-level writes and returns the
per-row callback exactly when the data table's `hasItemOption` flag is set
(`dataEach` when `hasItemOption`, else `null`). -/
def linesVisualReset (symbol symbolSize opacity : JVal) (hasItemOption : Bool) :
    List (String × JVal) × Option (JVal → JVal → JVal → List (String × JVal)) :=
  (resetSeriesWrites symbol symbolSize opacity,
   if hasItemOption then some dataEachWrites else none)

/-- Reading a visual attribute for a row: a per-item write (`setItemVisual`)
takes precedence over the series-level write (`setVisual`); with neither the
attribute is `undefined`. -/
def resolvedItemVisual (seriesWrites itemWrites : List (String × JVal))
    (attr : String) : JVal :=
  match itemWrites.lookup attr with
  | some v => v
  | none => (seriesWrites.lookup attr).getD .undefined

/-- `TreeSeriesModel.getOrient`: maps the legacy values `'horizontal'` to
`'LR'` and `'vertical'` to `'TB'`, returning any other configured orient
unchanged. -/
def getOrient (orient : String) : String :=
  if orient = "horizontal" then "LR"
  else if orient = "vertical" then "TB"
  else orient

/-- A node's `value` as the tooltip formatter sees it: absent (`undefined` or
`null`), `NaN`, or a finite integral number. -/
inductive JNum where
  | undefined : JNum
  | nan : JNum
  | num : Int → JNum
deriving DecidableEq, Repr

/-- JavaScript `isNaN(value as number)`: `undefined` coerces to `NaN`, so it
counts; a finite number does not. -/
def jsIsNaN : JNum → Bool
  | .undefined => true
  | .nan => true
  | .num _ => false

/-- JavaScript `value == null`: loose equality matches `null` and
`undefined` only. -/
def jsIsNull : JNum → Bool
  | .undefined => true
  | .nan => false
  | .num _ => false

/-- JavaScript string conversion of the node value (`' : ' + value`). -/
def jnumToString : JNum → String
  | .undefined => "undefined"
  | .nan => "NaN"
  | .num n => toString n

/-- One node of the user-authored option tree handed to
`TreeSeriesModel.getInitialData` (`TreeSeriesNodeItemOption`): a name, the
optional `collapsed` flag, a value and the nested `children`. -/
inductive OptNode where
  | mk (name : String) (collapsed : Option Bool) (value : JNum)
       (children : List OptNode)

/-- The node's `name` field. -/
def OptNode.name : OptNode → String
  | .mk n _ _ _ => n

/-- The node's `collapsed` field (`none` when absent, matching
`item.collapsed == null`). -/
def OptNode.collapsed : OptNode → Option Bool
  | .mk _ c _ _ => c

/-- The node's `value` field. -/
def OptNode.value : OptNode → JNum
  | .mk _ _ v _ => v

/-- The node's `children` field. -/
def OptNode.children : OptNode → List OptNode
  | .mk _ _ _ cs => cs

/-- The series options of `getInitialData` that the two traversals read:
`name` (used for the virtual root), `data` (the root-level nodes),
`expandAndCollapse` and `initialTreeDepth`. -/
structure TreeSeriesOpt where
  name : String
  data : List OptNode
  expandAndCollapse : Bool
  initialTreeDepth : Int

mutual

/-- Pre-order traversal of an option node at depth `d`: the node itself, then
its children at depth `d + 1`, as `(depth, node)` pairs.  This is the node
enumeration both `tree.eachNode('preorder', ...)` passes walk. -/
def OptNode.preorder : OptNode → Nat → List (Nat × OptNode)
  | .mk name c v children, d =>
      (d, .mk name c v children) :: preorderList children (d + 1)

/-- Pre-order traversal of a list of sibling nodes, left to right. -/
def preorderList : List OptNode → Nat → List (Nat × OptNode)
  | [], _ => []
  | n :: ns, d => n.preorder d ++ preorderList ns d

end

/-- The virtual root `getInitialData` creates:
`{name: option.name, children: option.data}` (no `collapsed`, no value). -/
def virtualRoot (opt : TreeSeriesOpt) : OptNode :=
  .mk opt.name none .undefined opt.data

/-- All nodes of the created tree in pre-order, with their depths; the
virtual root is at depth 0. -/
def allNodes (opt : TreeSeriesOpt) : List (Nat × OptNode) :=
  (virtualRoot opt).preorder 0

/-- The first traversal of `getInitialData`: starting from `treeDepth = 0`,
each visited node raises it when `node.depth > treeDepth`. -/
def computeTreeDepth (opt : TreeSeriesOpt) : Nat :=
  (allNodes opt).foldl (fun acc p => if p.1 > acc then p.1 else acc) 0

/-- `expandTreeDepth`: the configured `initialTreeDepth` when
`expandAndCollapse` is on and that depth is `>= 0`, otherwise the computed
`treeDepth`. -/
def expandTreeDepth (opt : TreeSeriesOpt) : Int :=
  if opt.expandAndCollapse && decide (0 ≤ opt.initialTreeDepth)
  then opt.initialTreeDepth
  else (computeTreeDepth opt : Int)

/-- The second traversal's assignment for one node: with an explicit
`collapsed` (non-null) the node gets `!collapsed`, otherwise
`node.depth <= expandTreeDepth`. -/
def isExpandOf (opt : TreeSeriesOpt) (depth : Nat) (collapsed : Option Bool) :
    Bool :=
  match collapsed with
  | some c => !c
  | none => decide ((depth : Int) ≤ expandTreeDepth opt)

/-- One node of the initialized tree: its name, originating `collapsed`
field, depth, and the `isExpand` flag `getInitialData` assigned. -/
structure TNode where
  name : String
  collapsed : Option Bool
  depth : Nat
  isExpand : Bool
deriving DecidableEq, Repr

/-- `TreeSeriesModel.getInitialData`, observed through the per-node state it
establishes: every node of the tree (virtual root included), in pre-order,
with the `isExpand` flag the second traversal assigns. -/
def getInitialData (opt : TreeSeriesOpt) : List TNode :=
  (allNodes opt).map (fun p =>
    { name := p.2.name
      collapsed := p.2.collapsed
      depth := p.1
      isExpand := isExpandOf opt p.1 p.2.collapsed })

/-- A per-item style model: its own option lookup and the swappable
`parentModel` used for fallback resolution. -/
inductive Model where
  | mk (own : String → Option String) (parent : Option Model)

/-- The model's own option lookup. -/
def Model.own : Model → String → Option String
  | .mk o _, key => o key

/-- `model.get(key)`: the model's own option when present, else resolution
through the `parentModel` chain (with no parent, the own option is the
result either way). -/
def Model.get : Model → String → Option String
  | .mk own none, key => own key
  | .mk own (some p), key =>
    match own key with
    | some v => some v
    | none => p.get key

/-- Unfolding `Model.get` for a model without a parent. -/
theorem Model.get_none (o : String → Option String) (key : String) :
    Model.get (.mk o none) key = o key := rfl

/-- Unfolding `Model.get` for a model with a parent. -/
theorem Model.get_some (o : String → Option String) (p : Model)
    (key : String) :
    Model.get (.mk o (some p)) key
      = match o key with
        | some v => some v
        | none => p.get key := rfl

/-- `model.parentModel = leavesModel`: replace the model's parent. -/
def Model.setParent : Model → Model → Model
  | .mk own _, p => .mk own (some p)

/-- The `getItemModel` wrapper installed by `beforeLink`: when the node has
no children or is not expanded, the item model's parent becomes the leaves
model; otherwise the model is returned unmodified. -/
def wrappedGetItemModel (childCount : Nat) (isExpand : Bool)
    (leavesModel model : Model) : Model :=
  if childCount = 0 ∨ isExpand = false then model.setParent leavesModel
  else model

/-- Modelled from the spec: `encodeHTML` (from `util/format`, outside the
provided sources) HTML-escapes the final string; we model it as the standard
replacement of the five HTML special characters. -/
def encodeHTML (s : String) : String :=
  String.join (s.data.map (fun c =>
    if c = Char.ofNat 38 then "&amp;"
    else if c = Char.ofNat 60 then "&lt;"
    else if c = Char.ofNat 62 then "&gt;"
    else if c = Char.ofNat 34 then "&quot;"
    else if c = Char.ofNat 39 then "&#39;"
    else String.singleton c))

/-- The `while` loop of `formatTooltip`, walking the parent chain.  The first
argument is the chain from the current node up to the synthetic root (so the
chain of the first real node is `[realRoot, root]`); the loop prepends the
parent's name while the current node is not the first real node, i.e. while
at least three names remain. -/
def tooltipWhile : List String → String → String
  | _cur :: parent :: next :: rest, name =>
      tooltipWhile (parent :: next :: rest) (parent ++ "." ++ name)
  | _, name => name

/-- `(isNaN(value as number) || value == null) ? '' : ' : ' + value`. -/
def jnumSuffix (v : JNum) : String :=
  if jsIsNaN v || jsIsNull v then "" else " : " ++ jnumToString v

/-- `TreeSeriesModel.formatTooltip` for a node inside the first real
subtree, identified by the list of node names on the path from the synthetic
root down to the node (the shallow embedding of the `parentNode` chain).
The current name starts as the node's own name; the loop then prepends
parent names up to, but excluding, the synthetic root; the value suffix is
appended and the result HTML-escaped. -/
def formatTooltip (pathRootToNode : List String) (v : JNum) : String :=
  let rev := pathRootToNode.reverse
  let name := rev.headD ""
  encodeHTML (tooltipWhile rev name ++ jnumSuffix v)

/-- The claim's reading of the name path: the `name` fields from the tree's
first real node down to the indexed node, joined with `'.'`. -/
def joinDots : List String → String
  | [] => ""
  | [x] => x
  | x :: y :: rest => x ++ "." ++ joinDots (y :: rest)

/-- The claim's reading of the value suffix: `' : ' + value` exactly when
the value is defined (non-null) and not `NaN`. -/
def specSuffix (v : JNum) : String :=
  match v with
  | .num n => " : " ++ toString n
  | _ => ""

/-- C10: `getOrient` maps `'horizontal'` to `'LR'` and `'vertical'` to
`'TB'`, and returns every other configured orient value unchanged. -/
theorem getOrient_legacy_mapping :
    getOrient "horizontal" = "LR" ∧ getOrient "vertical" = "TB" ∧
    ∀ s : String, s ≠ "horizontal" → s ≠ "vertical" → getOrient s = s := by
  refine ⟨by decide, by decide, ?_⟩
  intro s h1 h2
  simp [getOrient, h1, h2]

/-- C10 witness: the non-legacy orient `'RL'` is returned unchanged. -/
theorem getOrient_legacy_mapping_witness : getOrient "RL" = "RL" :=
  getOrient_legacy_mapping.2.2 "RL" (by decide) (by decide)

/-- C8: `linesVisual.reset` returns the per-row `dataEach` callback exactly
when the data table's `hasItemOption` flag is set, and `null` otherwise. -/
theorem linesReset_dataEach_iff_hasItemOption :
    ∀ symbol symbolSize opacity : JVal,
      (linesVisualReset symbol symbolSize opacity true).2 = some dataEachWrites ∧
      (linesVisualReset symbol symbolSize opacity false).2 = none ∧
      ∀ hasItemOption : Bool,
        ((linesVisualReset symbol symbolSize opacity hasItemOption).2).isSome
          = hasItemOption := by
  intro symbol symbolSize opacity
  refine ⟨rfl, rfl, ?_⟩
  intro h
  cases h <;> rfl

/-- C7: `normalize` turns a scalar into the pair `[a, a]` and keeps an array
unchanged; a series `symbol: 'circle'` yields `fromSymbol = toSymbol =
'circle'`, a series `symbol: ['a', 'b']` yields `fromSymbol = 'a'` and
`toSymbol = 'b'`; and all five series-level visual attributes are written
unconditionally. -/
theorem normalize_pair_and_series_defaults :
    (∀ a : JVal, a.isArr = false → normalize a = .arr [a, a]) ∧
    (∀ xs : List JVal, normalize (.arr xs) = .arr xs) ∧
    ((resetSeriesWrites (.str "circle") (.num 7) (.num 1)).lookup "fromSymbol"
        = some (.str "circle")) ∧
    ((resetSeriesWrites (.str "circle") (.num 7) (.num 1)).lookup "toSymbol"
        = some (.str "circle")) ∧
    ((resetSeriesWrites (.arr [.str "a", .str "b"]) (.num 7) (.num 1)).lookup
        "fromSymbol" = some (.str "a")) ∧
    ((resetSeriesWrites (.arr [.str "a", .str "b"]) (.num 7) (.num 1)).lookup
        "toSymbol" = some (.str "b")) ∧
    ∀ symbol symbolSize opacity : JVal,
      (resetSeriesWrites symbol symbolSize opacity).map Prod.fst
        = ["fromSymbol", "toSymbol", "fromSymbolSize", "toSymbolSize",
           "opacity"] := by
  refine ⟨?_, fun xs => rfl, rfl, rfl, rfl, rfl, fun s ss o => rfl⟩
  intro a h
  cases a <;> simp [normalize, JVal.isArr] at h ⊢

/-- C7 witness: the scalar clause applied to the string `'x'`. -/
theorem normalize_pair_and_series_defaults_witness :
    JVal.isArr (.str "x") = false ∧
    normalize (.str "x") = .arr [.str "x", .str "x"] :=
  ⟨rfl, normalize_pair_and_series_defaults.1 (.str "x") rfl⟩

/-- The per-row write list, looked up attribute by attribute: each of the
four symbol attributes is present exactly when its normalized component is
truthy, and the opacity write is always present. -/
theorem dataEachWrites_lookup (iSym iSize iOp : JVal) :
    ((dataEachWrites iSym iSize iOp).lookup "fromSymbol"
        = if truthy ((normalize iSym).index 0)
          then some ((normalize iSym).index 0) else none) ∧
    ((dataEachWrites iSym iSize iOp).lookup "toSymbol"
        = if truthy ((normalize iSym).index 1)
          then some ((normalize iSym).index 1) else none) ∧
    ((dataEachWrites iSym iSize iOp).lookup "fromSymbolSize"
        = if truthy ((normalize iSize).index 0)
          then some ((normalize iSize).index 0) else none) ∧
    ((dataEachWrites iSym iSize iOp).lookup "toSymbolSize"
        = if truthy ((normalize iSize).index 1)
          then some ((normalize iSize).index 1) else none) ∧
    (dataEachWrites iSym iSize iOp).lookup "opacity" = some iOp := by
  cases h0 : truthy ((normalize iSym).index 0) <;>
  cases h1 : truthy ((normalize iSym).index 1) <;>
  cases h2 : truthy ((normalize iSize).index 0) <;>
  cases h3 : truthy ((normalize iSize).index 1) <;>
    simp [dataEachWrites, h0, h1, h2, h3, List.lookup]

/-- If a lookup result equals a truthiness-guarded conditional write, any
value it yields is truthy. -/
theorem lookup_truthy_aux (x : JVal) (o : Option JVal)
    (h : o = if truthy x then some x else none) (v : JVal) (hv : o = some v) :
    truthy v = true := by
  rw [h] at hv
  cases ht : truthy x with
  | false => rw [ht] at hv; exact absurd hv (by simp)
  | true => rw [ht] at hv; simp at hv; rw [← hv]; exact ht

/-- C3: in `dataEach`, each of the four attributes `fromSymbol`, `toSymbol`,
`fromSymbolSize`, `toSymbolSize` is overwritten for a row exactly when the
row's normalized override value is truthy, and a falsy override leaves the
series-level value in effect for that row. -/
theorem dataEach_overwrite_only_truthy :
    ∀ iSym iSize iOp sSym sSize sOp : JVal,
      ((dataEachWrites iSym iSize iOp).lookup "fromSymbol"
          = if truthy ((normalize iSym).index 0)
            then some ((normalize iSym).index 0) else none) ∧
      ((dataEachWrites iSym iSize iOp).lookup "toSymbol"
          = if truthy ((normalize iSym).index 1)
            then some ((normalize iSym).index 1) else none) ∧
      ((dataEachWrites iSym iSize iOp).lookup "fromSymbolSize"
          = if truthy ((normalize iSize).index 0)
            then some ((normalize iSize).index 0) else none) ∧
      ((dataEachWrites iSym iSize iOp).lookup "toSymbolSize"
          = if truthy ((normalize iSize).index 1)
            then some ((normalize iSize).index 1) else none) ∧
      (truthy ((normalize iSym).index 0) = false →
        resolvedItemVisual (resetSeriesWrites sSym sSize sOp)
            (dataEachWrites iSym iSize iOp) "fromSymbol"
          = resolvedItemVisual (resetSeriesWrites sSym sSize sOp) []
              "fromSymbol") ∧
      (truthy ((normalize iSym).index 1) = false →
        resolvedItemVisual (resetSeriesWrites sSym sSize sOp)
            (dataEachWrites iSym iSize iOp) "toSymbol"
          = resolvedItemVisual (resetSeriesWrites sSym sSize sOp) []
              "toSymbol") ∧
      (truthy ((normalize iSize).index 0) = false →
        resolvedItemVisual (resetSeriesWrites sSym sSize sOp)
            (dataEachWrites iSym iSize iOp) "fromSymbolSize"
          = resolvedItemVisual (resetSeriesWrites sSym sSize sOp) []
              "fromSymbolSize") ∧
      (truthy ((normalize iSize).index 1) = false →
        resolvedItemVisual (resetSeriesWrites sSym sSize sOp)
            (dataEachWrites iSym iSize iOp) "toSymbolSize"
          = resolvedItemVisual (resetSeriesWrites sSym sSize sOp) []
              "toSymbolSize") := by
  intro iSym iSize iOp sSym sSize sOp
  obtain ⟨h1, h2, h3, h4, h5⟩ := dataEachWrites_lookup iSym iSize iOp
  refine ⟨h1, h2, h3, h4, ?_, ?_, ?_, ?_⟩ <;> intro hf
  · simp [resolvedItemVisual, h1, hf]
  · simp [resolvedItemVisual, h2, hf]
  · simp [resolvedItemVisual, h3, hf]
  · simp [resolvedItemVisual, h4, hf]

/-- C3 witness: a per-item `symbolSize: 0` override (falsy) does not
displace the series-level `fromSymbolSize`. -/
theorem dataEach_overwrite_only_truthy_witness :
    truthy ((normalize (.num 0)).index 0) = false ∧
    resolvedItemVisual (resetSeriesWrites (.str "circle") (.num 7) (.num 1))
        (dataEachWrites .undefined (.num 0) .undefined) "fromSymbolSize"
      = resolvedItemVisual (resetSeriesWrites (.str "circle") (.num 7) (.num 1))
          [] "fromSymbolSize" :=
  ⟨rfl, (dataEach_overwrite_only_truthy .undefined (.num 0) .undefined (.str "circle")
      (.num 7) (.num 1)).2.2.2.2.2.2.1 rfl⟩

/-- C9 counterexample: opacity is written per row unconditionally, so an
explicit falsy opacity override (`0`) does displace the series-level
opacity (`1`), contradicting "written only if explicitly truthy/defined;
otherwise the series-level default applies". -/
theorem dataEach_opacity_overrides_falsy :
    truthy (.num 0) = false ∧
    (dataEachWrites .undefined .undefined (.num 0)).lookup "opacity" = some (.num 0) ∧
    resolvedItemVisual (resetSeriesWrites (.str "circle") (.num 7) (.num 1))
        (dataEachWrites .undefined .undefined (.num 0)) "opacity" = .num 0 ∧
    resolvedItemVisual (resetSeriesWrites (.str "circle") (.num 7) (.num 1))
        [] "opacity" = .num 1 :=
  ⟨rfl, rfl, rfl, rfl⟩

/-- C9 amended: for the four symbol attributes a per-item value is written
only when truthy, while opacity is written unconditionally with the item
model's resolved value. -/
theorem dataEach_per_item_write_policy :
    ∀ iSym iSize iOp : JVal,
      (∀ v : JVal,
        (dataEachWrites iSym iSize iOp).lookup "fromSymbol" = some v →
          truthy v = true) ∧
      (∀ v : JVal,
        (dataEachWrites iSym iSize iOp).lookup "toSymbol" = some v →
          truthy v = true) ∧
      (∀ v : JVal,
        (dataEachWrites iSym iSize iOp).lookup "fromSymbolSize" = some v →
          truthy v = true) ∧
      (∀ v : JVal,
        (dataEachWrites iSym iSize iOp).lookup "toSymbolSize" = some v →
          truthy v = true) ∧
      (dataEachWrites iSym iSize iOp).lookup "opacity" = some iOp := by
  intro iSym iSize iOp
  obtain ⟨h1, h2, h3, h4, h5⟩ := dataEachWrites_lookup iSym iSize iOp
  exact ⟨fun v hv => lookup_truthy_aux _ _ h1 v hv,
         fun v hv => lookup_truthy_aux _ _ h2 v hv,
         fun v hv => lookup_truthy_aux _ _ h3 v hv,
         fun v hv => lookup_truthy_aux _ _ h4 v hv, h5⟩

/-- C9 amended witness: a truthy per-item symbol is written, and the
written value is truthy. -/
theorem dataEach_per_item_write_policy_witness :
    (dataEachWrites (.str "s") .undefined .undefined).lookup "fromSymbol"
        = some (.str "s") ∧
    truthy (.str "s") = true :=
  ⟨rfl, (dataEach_per_item_write_policy (.str "s") .undefined .undefined).1
      (.str "s") rfl⟩

/-- The depth fold of the first traversal never drops below its
accumulator. -/
theorem depthFold_ge_init (l : List (Nat × OptNode)) (i : Nat) :
    i ≤ l.foldl (fun acc p => if p.1 > acc then p.1 else acc) i := by
  induction l generalizing i with
  | nil => exact Nat.le_refl i
  | cons x xs ih =>
      simp only [List.foldl_cons]
      exact Nat.le_trans (by split <;> omega) (ih (if x.1 > i then x.1 else i))

/-- The depth fold dominates the depth of every visited node. -/
theorem depthFold_ge_mem :
    ∀ (l : List (Nat × OptNode)) (i : Nat) (p : Nat × OptNode), p ∈ l →
      p.1 ≤ l.foldl (fun acc q => if q.1 > acc then q.1 else acc) i := by
  intro l
  induction l with
  | nil => intro i p hp; cases hp
  | cons x xs ih =>
      intro i p hp
      simp only [List.foldl_cons]
      rcases List.mem_cons.mp hp with rfl | h
      · exact Nat.le_trans (by split <;> omega) (depthFold_ge_init xs _)
      · exact ih _ p h

/-- The depth fold's result is its initial value or the depth of a visited
node. -/
theorem depthFold_mem_or_init :
    ∀ (l : List (Nat × OptNode)) (i : Nat),
      l.foldl (fun acc q => if q.1 > acc then q.1 else acc) i = i ∨
      ∃ p ∈ l, l.foldl (fun acc q => if q.1 > acc then q.1 else acc) i = p.1 := by
  intro l
  induction l with
  | nil => intro i; exact Or.inl rfl
  | cons x xs ih =>
      intro i
      simp only [List.foldl_cons]
      rcases ih (if x.1 > i then x.1 else i) with h | ⟨p, hp, hfold⟩
      · by_cases hx : x.1 > i
        · exact Or.inr ⟨x, List.mem_cons_self x xs, by rw [h]; simp [hx]⟩
        · exact Or.inl (by rw [h]; simp [hx])
      · exact Or.inr ⟨p, List.mem_cons_of_mem x hp, hfold⟩

/-- C4: the `treeDepth` computed by the first pre-order traversal is the
maximum of `node.depth` over all nodes reachable from the root: it bounds
every node's depth and is attained by some node. -/
theorem treeDepth_is_max_depth :
    ∀ opt : TreeSeriesOpt,
      (∀ p ∈ allNodes opt, p.1 ≤ computeTreeDepth opt) ∧
      ∃ p ∈ allNodes opt, p.1 = computeTreeDepth opt := by
  intro opt
  constructor
  · intro p hp
    exact depthFold_ge_mem _ 0 p hp
  · rcases depthFold_mem_or_init (allNodes opt) 0 with h | ⟨p, hp, hf⟩
    · refine ⟨(0, virtualRoot opt), ?_, ?_⟩
      · have hhead : allNodes opt
            = (0, virtualRoot opt) :: preorderList opt.data 1 := rfl
        rw [hhead]
        exact List.mem_cons_self _ _
      · show (0 : Nat) = computeTreeDepth opt
        rw [computeTreeDepth]
        exact h.symm
    · exact ⟨p, hp, hf.symm⟩

/-- C4 witness: in the tree `s → A`, the node `A` at depth 1 is bounded by
the computed tree depth 1. -/
theorem treeDepth_is_max_depth_witness :
    ((1, OptNode.mk "A" none (.num 1) [])
        ∈ allNodes (TreeSeriesOpt.mk "s" [.mk "A" none (.num 1) []] true 2)) ∧
    1 ≤ computeTreeDepth
        (TreeSeriesOpt.mk "s" [.mk "A" none (.num 1) []] true 2) := by
  have hmem : (1, OptNode.mk "A" none (.num 1) [])
      ∈ allNodes (TreeSeriesOpt.mk "s" [.mk "A" none (.num 1) []] true 2) := by
    have hlist : allNodes (TreeSeriesOpt.mk "s" [.mk "A" none (.num 1) []] true 2)
        = [(0, OptNode.mk "s" none .undefined [.mk "A" none (.num 1) []]),
           (1, OptNode.mk "A" none (.num 1) [])] := rfl
    rw [hlist]
    exact List.mem_cons_of_mem _ (List.mem_cons_self _ _)
  exact ⟨hmem,
    (treeDepth_is_max_depth (TreeSeriesOpt.mk "s" [.mk "A" none (.num 1) []]
      true 2)).1 _ hmem⟩

/-- C1: a node whose originating option item carries an explicit
`collapsed` value ends up with `isExpand = !collapsed`, regardless of its
depth; in particular `collapsed: false` yields `isExpand = true`. -/
theorem isExpand_explicit_collapsed :
    ∀ (opt : TreeSeriesOpt) (t : TNode), t ∈ getInitialData opt →
      ∀ c : Bool, t.collapsed = some c → t.isExpand = !c := by
  intro opt t ht c hc
  rcases List.mem_map.mp ht with ⟨p, _, rfl⟩
  simp only [TNode.collapsed] at hc
  simp [isExpandOf, hc]

/-- C1 witness: in the tree `s → A → B` with `B` explicitly
`collapsed: true`, the node `B` at depth 2 has `isExpand = !true = false`. -/
theorem isExpand_explicit_collapsed_witness :
    ((⟨"B", some true, 2, false⟩ : TNode)
        ∈ getInitialData (TreeSeriesOpt.mk "s"
            [.mk "A" none (.num 1) [.mk "B" (some true) .undefined []]] true 2)) ∧
    (⟨"B", some true, 2, false⟩ : TNode).isExpand = !true :=
  ⟨by decide,
   isExpand_explicit_collapsed
     (TreeSeriesOpt.mk "s" [.mk "A" none (.num 1)
        [.mk "B" (some true) .undefined []]] true 2)
     ⟨"B", some true, 2, false⟩ (by decide) true rfl⟩

/-- C2: a node without an explicit `collapsed` field gets `isExpand = true`
when expand/collapse is disabled or the configured `initialTreeDepth` is
negative, and otherwise gets `isExpand = (depth <= initialTreeDepth)`. -/
theorem isExpand_default_depth_policy :
    ∀ (opt : TreeSeriesOpt) (t : TNode), t ∈ getInitialData opt →
      t.collapsed = none →
      ((opt.expandAndCollapse = false ∨ opt.initialTreeDepth < 0) →
        t.isExpand = true) ∧
      (opt.expandAndCollapse = true → 0 ≤ opt.initialTreeDepth →
        t.isExpand = decide ((t.depth : Int) ≤ opt.initialTreeDepth)) := by
  intro opt t ht hc
  rcases List.mem_map.mp ht with ⟨p, hp, rfl⟩
  simp only [TNode.collapsed] at hc
  constructor
  · intro hdis
    have hcond : (opt.expandAndCollapse
        && decide (0 ≤ opt.initialTreeDepth)) = false := by
      rcases hdis with h | h
      · simp [h]
      · have : ¬ (0 ≤ opt.initialTreeDepth) := by omega
        simp [this]
    have hle : p.1 ≤ computeTreeDepth opt := depthFold_ge_mem _ 0 p hp
    show isExpandOf opt p.1 p.2.collapsed = true
    rw [hc]
    simp only [isExpandOf, expandTreeDepth, hcond]
    simp
    omega
  · intro hon hnonneg
    have hcond : (opt.expandAndCollapse
        && decide (0 ≤ opt.initialTreeDepth)) = true := by
      simp [hon, hnonneg]
    show isExpandOf opt p.1 p.2.collapsed
        = decide ((p.1 : Int) ≤ opt.initialTreeDepth)
    rw [hc]
    simp only [isExpandOf, expandTreeDepth, hcond]
    simp

/-- C2 witness: with expand/collapse disabled, the depth-2 node `B` of
`s → A → B` (no explicit `collapsed`) is expanded. -/
theorem isExpand_default_depth_policy_witness :
    ((⟨"B", none, 2, true⟩ : TNode)
        ∈ getInitialData (TreeSeriesOpt.mk "s"
            [.mk "A" none (.num 1) [.mk "B" none .undefined []]] false 0)) ∧
    (⟨"B", none, 2, true⟩ : TNode).isExpand = true :=
  ⟨by decide,
   (isExpand_default_depth_policy
     (TreeSeriesOpt.mk "s" [.mk "A" none (.num 1) [.mk "B" none .undefined []]]
        false 0)
     ⟨"B", none, 2, true⟩ (by decide) rfl).1 (Or.inl rfl)⟩

/-- C6: when a node has no children or is not expanded, the wrapped
`getItemModel` returns the item model with the leaves model as its parent —
so a property the leaves bundle defines (and the item itself does not)
resolves from the leaves model — and for every other node the item model is
returned unmodified. -/
theorem beforeLink_leaves_parent :
    ∀ (childCount : Nat) (isExpand : Bool) (leavesModel model : Model),
      ((childCount = 0 ∨ isExpand = false) →
        wrappedGetItemModel childCount isExpand leavesModel model
            = model.setParent leavesModel ∧
        ∀ (key v : String), Model.own model key = none →
          Model.own leavesModel key = some v →
          (wrappedGetItemModel childCount isExpand leavesModel model).get key
            = some v) ∧
      (childCount ≠ 0 → isExpand = true →
        wrappedGetItemModel childCount isExpand leavesModel model = model) := by
  intro cc ie lm m
  constructor
  · intro hcond
    have heq : wrappedGetItemModel cc ie lm m = m.setParent lm := by
      unfold wrappedGetItemModel
      rw [if_pos hcond]
    refine ⟨heq, ?_⟩
    intro key v hown hleaf
    rw [heq]
    cases m with
    | mk o par =>
      cases lm with
      | mk lo lpar =>
        simp only [Model.own] at hown hleaf
        simp only [Model.setParent]
        rw [Model.get_some, hown]
        show Model.get (Model.mk lo lpar) key = some v
        cases lpar with
        | none => rw [Model.get_none, hleaf]
        | some q => rw [Model.get_some, hleaf]
  · intro h1 h2
    unfold wrappedGetItemModel
    rw [if_neg]
    rintro (h | h)
    · exact h1 h
    · rw [h2] at h
      exact absurd h (by decide)

/-- C6 witness: a childless node's item model, with empty own options,
resolves the key `'show'` from the leaves model. -/
theorem beforeLink_leaves_parent_witness :
    Model.own (.mk (fun _ => none) none) "show" = none ∧
    Model.own (.mk (fun k => if k = "show" then some "true" else none) none)
        "show" = some "true" ∧
    (wrappedGetItemModel 0 true
        (.mk (fun k => if k = "show" then some "true" else none) none)
        (.mk (fun _ => none) none)).get "show" = some "true" := by
  refine ⟨rfl, rfl, ?_⟩
  exact ((beforeLink_leaves_parent 0 true
      (.mk (fun k => if k = "show" then some "true" else none) none)
      (.mk (fun _ => none) none)).1 (Or.inl rfl)).2 "show" "true" rfl rfl

/-- Unfolding `joinDots` over a list with at least two elements. -/
theorem joinDots_cons (x y : String) (l : List String) :
    joinDots (x :: y :: l) = x ++ "." ++ joinDots (y :: l) := rfl

/-- Merging the last two joined names into one dot-separated name leaves
the join unchanged. -/
theorem joinDots_concat_pair :
    ∀ (l : List String) (a b : String),
      joinDots (l ++ [a, b]) = joinDots (l ++ [a ++ "." ++ b]) := by
  intro l
  induction l with
  | nil => intro a b; rfl
  | cons x xs ih =>
      intro a b
      cases xs with
      | nil => rfl
      | cons y ys =>
          have h1 : (x :: y :: ys) ++ [a, b]
              = x :: ((y :: ys) ++ [a, b]) := rfl
          have h2 : (x :: y :: ys) ++ [a ++ "." ++ b]
              = x :: ((y :: ys) ++ [a ++ "." ++ b]) := rfl
          have h3 : (y :: ys) ++ [a, b] = y :: (ys ++ [a, b]) := rfl
          have h4 : (y :: ys) ++ [a ++ "." ++ b]
              = y :: (ys ++ [a ++ "." ++ b]) := rfl
          rw [h1, h2, h3, h4, joinDots_cons, joinDots_cons, ← h3, ← h4, ih]

/-- The tooltip `while` loop over a chain that reaches the synthetic root
joins the chain's names (without the synthetic root) with dots: the chain
is given leaf-to-root without the root, `acc` starts as the node's own
name. -/
theorem tooltipWhile_chain :
    ∀ (rns : List String) (root acc : String), rns ≠ [] →
      tooltipWhile (rns ++ [root]) acc
        = joinDots (rns.reverse.dropLast ++ [acc]) := by
  intro rns
  induction rns with
  | nil => intro root acc h; exact absurd rfl h
  | cons x xs ih =>
      intro root acc _
      cases xs with
      | nil => rfl
      | cons y ys =>
          have hstep : tooltipWhile ((x :: y :: ys) ++ [root]) acc
              = tooltipWhile ((y :: ys) ++ [root]) (y ++ "." ++ acc) := by
            cases ys <;> rfl
          rw [hstep, ih root (y ++ "." ++ acc) (by simp)]
          rw [List.reverse_cons (a := x), List.dropLast_concat]
          rw [List.reverse_cons (a := y), List.dropLast_concat]
          rw [List.append_assoc]
          exact (joinDots_concat_pair ys.reverse y acc).symm

/-- The source's value-suffix conditional agrees with the claim's reading
(defined and not `NaN`). -/
theorem jnumSuffix_eq_specSuffix (v : JNum) : jnumSuffix v = specSuffix v := by
  cases v <;> rfl

/-- C5: for a node inside the first real subtree, `formatTooltip` returns
the HTML-escaped dot-joined names from the first real node down to the
node, with `' : ' + value` appended exactly when the value is defined and
not `NaN`. -/
theorem formatTooltip_name_path :
    ∀ (rootName : String) (ns : List String) (v : JNum), ns ≠ [] →
      formatTooltip (rootName :: ns) v
        = encodeHTML (joinDots ns ++ specSuffix v) := by
  intro rootName ns v hns
  obtain ⟨a, as, ha⟩ : ∃ a as, ns.reverse = a :: as := by
    cases hr : ns.reverse with
    | nil => exact absurd (List.reverse_eq_nil_iff.mp hr) hns
    | cons a as => exact ⟨a, as, rfl⟩
  have hnsrep : ns = as.reverse ++ [a] := by
    rw [← List.reverse_reverse ns, ha, List.reverse_cons]
  simp only [formatTooltip, List.reverse_cons, ha]
  have hhead : ((a :: as) ++ [rootName]).headD "" = a := rfl
  rw [hhead, tooltipWhile_chain (a :: as) rootName a (by simp)]
  have hrev : (a :: as).reverse = ns := by
    rw [← ha, List.reverse_reverse]
  rw [hrev]
  have hdrop : ns.dropLast ++ [a] = ns := by
    rw [hnsrep, List.dropLast_concat]
  rw [hdrop, jnumSuffix_eq_specSuffix]

/-- C5 witness: the chain root→A→B with value 5 produces `"A.B : 5"`. -/
theorem formatTooltip_name_path_witness :
    formatTooltip ["root", "A", "B"] (.num 5) = "A.B : 5" :=
  (formatTooltip_name_path "root" ["A", "B"] (.num 5) (by decide)).trans
    (by rfl)

end EchartsSpec
